import Mathlib

/-!
Verification of the email-spam-detection service: a shallow embedding of
the spam classifier (`app/services/spam_classifier.py`), the Gmail body
decoder and trash loop (`app/services/gmail_service.py`), and the
in-memory result cache (`app/main.py`), together with theorems settling
the specification claims.

Strings are Lean `String`s; wall-clock time is an explicit `Nat`
parameter (seconds); the external mail API and the HTML-stripping and
base64-decoding library calls are abstracted as function parameters,
with failure modelled by `Option`.
-/


/-! ## String helpers: Python's substring test `needle in hay` -/

/-- Boolean test that the first list is an initial segment of the second
(Python's `str.startswith`, used to build the substring test). -/
def clStartsWith : List Char → List Char → Bool
  | [], _ => true
  | _ :: _, [] => false
  | a :: as, b :: bs => a == b && clStartsWith as bs

/-- Boolean substring test on character lists: `containsSub n h` is
Python's `n in h`. -/
def containsSub (n : List Char) : List Char → Bool
  | [] => n.isEmpty
  | b :: t => clStartsWith n (b :: t) || containsSub n t

/-- `strContainsSub hay needle` is Python's `needle in hay` on strings. -/
def strContainsSub (hay needle : String) : Bool :=
  containsSub needle.toList hay.toList

/-- The substring relation stated abstractly: `n` occurs somewhere
inside `h`. -/
def OccursIn (n h : List Char) : Prop :=
  ∃ p q, h = p ++ (n ++ q)

/-- Python's `str.lower()` (ASCII case folding suffices for the labels
involved). -/
def pyLower (s : String) : String :=
  String.mk (s.data.map Char.toLower)

/-- Python's `str.strip()`: drop whitespace from both ends. -/
def pyStrip (s : String) : String :=
  String.mk (((s.data.dropWhile Char.isWhitespace).reverse.dropWhile
    Char.isWhitespace).reverse)

/-- Python's slice `s[:n]`: the first `n` characters. -/
def pyTake (s : String) (n : Nat) : String :=
  String.mk (s.data.take n)

/-! ## Classifier (`app/services/spam_classifier.py`)

`classify_email` builds a fixed prompt, runs the text-generation
pipeline (abstracted as `model : String → String`), lower-cases and
trims the generated text, and tests for the substring `"spam"`. -/

/-- The prompt built by `SpamClassifier.classify_email` (lines 15-21). -/
def mkPrompt (sender subject bodySnip : String) : String :=
  "Does the following email seem like spam?\n" ++
  "Sender: " ++ sender ++ "\n" ++
  "Subject: " ++ subject ++ "\n" ++
  "Body: " ++ bodySnip ++ "\n" ++
  "Answer with one word: spam or not-spam."

/-- `SpamClassifier.classify_email` (lines 13-23): the pipeline call is
the parameter `model`; `body` is optional (`body or ""` in the source)
and truncated to 256 characters. -/
def classify_email (model : String → String) (sender subject : String)
    (body : Option String) : String :=
  let body_snip := pyTake (body.getD "") 256
  let output := pyLower (pyStrip (model (mkPrompt sender subject body_snip)))
  if strContainsSub output "spam" then "spam" else "not-spam"

/-! ## Gmail body decoding (`app/services/gmail_service.py`, lines 28-61)

A MIME part carries a mime type and optional base64 data; the payload
carries a part list and an optional top-level body. Library calls are
abstracted: `b64` is `base64.urlsafe_b64decode` followed by the
(non-failing) utf-8 decode, returning `none` when decoding raises, and
`htmlText` is BeautifulSoup's markup stripping
(`_extract_text_from_html`). -/

structure MimePart where
  mimeType : String
  data : Option String
deriving DecidableEq, Repr

structure MimePayload where
  parts : List MimePart
  bodyData : Option String
deriving DecidableEq, Repr

/-- The `for part in parts` loop of `_decode_email_body` (lines 34-50):
returns the result produced by the first part that settles the body, or
`none` when the loop falls through. -/
def scanParts (b64 : String → Option String) (htmlText : String → String) :
    List MimePart → Option String
  | [] => none
  | ⟨_, none⟩ :: rest => scanParts b64 htmlText rest
  | ⟨mime, some raw⟩ :: rest =>
    match b64 raw with
    | none => scanParts b64 htmlText rest
    | some decoded =>
      if mime = "text/plain" then some decoded
      else if mime = "text/html" then some (htmlText decoded)
      else scanParts b64 htmlText rest

/-- `GmailService._decode_email_body` (lines 28-61): scan the parts;
on fall-through, try the top-level payload body as HTML; otherwise
return the initial `body_text = ""`. -/
def decode_email_body (b64 : String → Option String)
    (htmlText : String → String) (payload : MimePayload) : String :=
  match scanParts b64 htmlText payload.parts with
  | some s => s
  | none =>
    match payload.bodyData with
    | none => ""
    | some raw =>
      match b64 raw with
      | none => ""
      | some decoded => htmlText decoded

/-- What a single loop iteration produces for one part: `none` when the
part is skipped (no data, failed decode, or other mime type), otherwise
the body the loop returns for it. -/
def partYields (b64 : String → Option String) (htmlText : String → String) :
    MimePart → Option String
  | ⟨_, none⟩ => none
  | ⟨mime, some raw⟩ =>
    match b64 raw with
    | none => none
    | some decoded =>
      if mime = "text/plain" then some decoded
      else if mime = "text/html" then some (htmlText decoded)
      else none

/-! ## In-memory email cache (`app/main.py`, lines 63-94)

`email_cache` is a Python dict from user id to an entry dict; here it is
an association list with distinct keys. Wall-clock time (`dt.now()`) is
an explicit `Nat` parameter in seconds; one call is modelled as one
instant. -/

/-- A cached message as built by `fetch_emails_by_date_range` plus the
`prediction` key attached in `fetch_emails` or by an uploaded
correction. -/
structure Msg where
  id : String
  sender : String
  subject : String
  body : String
  prediction : Option String
deriving DecidableEq, Repr

/-- One value of `email_cache` (lines 67-72). -/
structure Entry where
  emails : List Msg
  source : String
  created_at : Nat
  expires_at : Nat
deriving DecidableEq, Repr

/-- The cache: a map from user id to entry, as an association list. -/
abbrev Cache := List (String × Entry)

/-- `timedelta(hours=2)` in seconds. -/
def TTL_SECONDS : Nat := 2 * 60 * 60

/-- Dict lookup `email_cache[user_id]` / `user_id in email_cache`. -/
def cacheLookup : Cache → String → Option Entry
  | [], _ => none
  | (k, e) :: rest, u => if k = u then some e else cacheLookup rest u

/-- Dict deletion `del email_cache[user_id]`. -/
def cacheErase (c : Cache) (u : String) : Cache :=
  c.filter (fun p => p.1 != u)

/-- Dict assignment `email_cache[user_id] = entry`: overwrite in place,
or append a new binding. -/
def cacheInsert : Cache → String → Entry → Cache
  | [], u, e => [(u, e)]
  | (k, v) :: rest, u, e =>
    if k = u then (k, e) :: rest else (k, v) :: cacheInsert rest u e

/-- `store_user_emails` (lines 65-73): cache an entry whose
`created_at` is now and whose `expires_at` is now plus the 2-hour TTL. -/
def store_user_emails (c : Cache) (user_id : String) (emails : List Msg)
    (source : String) (now : Nat) : Cache :=
  cacheInsert c user_id ⟨emails, source, now, now + TTL_SECONDS⟩

/-- `get_user_emails` (lines 75-86): returns the `(emails, source)`
pair (`(none, none)` when missing or expired) together with the cache
after the call, since an expired entry is deleted on read. -/
def get_user_emails (c : Cache) (user_id : String) (now : Nat) :
    (Option (List Msg) × Option String) × Cache :=
  match cacheLookup c user_id with
  | none => ((none, none), c)
  | some e =>
    if e.expires_at < now then ((none, none), cacheErase c user_id)
    else ((some e.emails, some e.source), c)

/-- `cleanup_expired_cache` (lines 88-94): collect the user ids whose
entries are expired (`dt.now() > expires_at`), then delete each. -/
def cleanup_expired_cache (c : Cache) (now : Nat) : Cache :=
  let expired := (c.filter (fun p => decide (p.2.expires_at < now))).map
    Prod.fst
  expired.foldl cacheErase c

/-- The cache side effect of the `/cache-stats` endpoint (lines
374-396): it sweeps before reading and never writes. -/
def cache_stats_effect (c : Cache) (now : Nat) : Cache :=
  cleanup_expired_cache c now

/-- The cache side effect of `/logout` (lines 410-419). -/
def logout_effect (c : Cache) (user_id : String) : Cache :=
  cacheErase c user_id

/-- Distinct keys, the dict representation invariant. -/
def NoDupKeys (c : Cache) : Prop :=
  (c.map Prod.fst).Nodup

/-- Entry well-formedness: the expiry is the creation time plus the
fixed 2-hour TTL. -/
def EntryWf (e : Entry) : Prop :=
  e.expires_at = e.created_at + TTL_SECONDS

/-- Every entry reachable in the cache is well-formed. -/
def CacheWf (c : Cache) : Prop :=
  ∀ u e, cacheLookup c u = some e → EntryWf e

/-! ## Moving emails to trash (`gmail_service.py` lines 103-110,
`app/main.py` lines 320-349)

The Gmail trash call is abstracted as a state-transformer
`step : σ → String → Option σ` on the mail account state `σ`, with
`none` modelling a raised exception. -/

/-- The loop body of `GmailService.move_emails_to_trash` with its
running `count`: `(state, some count)` on normal return, `(state,
none)` when a call raised — the state reached so far is kept. -/
def trashLoop {σ : Type} (step : σ → String → Option σ) :
    σ → List String → Nat → σ × Option Nat
  | s, [], count => (s, some count)
  | s, msg_id :: rest, count =>
    match step s msg_id with
    | some s' => trashLoop step s' rest (count + 1)
    | none => (s, none)

/-- `GmailService.move_emails_to_trash` (lines 103-110): `count = 0`,
then one trash call per id in order. -/
def move_emails_to_trash {σ : Type} (step : σ → String → Option σ)
    (s : σ) (message_ids : List String) : σ × Option Nat :=
  trashLoop step s message_ids 0

/-- Sequentially trash every id, `none` as soon as one call fails. -/
def trashAll {σ : Type} (step : σ → String → Option σ) :
    σ → List String → Option σ
  | s, [] => some s
  | s, msg_id :: rest =>
    match step s msg_id with
    | some s' => trashAll step s' rest
    | none => none

/-- The spam-id selection of the `/move-to-trash` handler
(`app/main.py` line 329): ids of the cached messages whose prediction
lower-cases and trims to exactly `"spam"`. -/
def selectSpamIds (emails : List Msg) : List String :=
  (emails.filter
    (fun e => pyStrip (pyLower (e.prediction.getD "")) == "spam")).map
    (fun e => e.id)

/-- The `/move-to-trash` handler (lines 320-349) after the cache read:
with no spam ids it answers `moved = 0` without touching the mail
state; otherwise it delegates to `move_emails_to_trash`. -/
def move_to_trash_route {σ : Type} (step : σ → String → Option σ)
    (s : σ) (emails : List Msg) : σ × Option Nat :=
  let spam_ids := selectSpamIds emails
  if spam_ids.isEmpty then (s, some 0)
  else move_emails_to_trash step s spam_ids

theorem clStartsWith_iff (n h : List Char) :
    clStartsWith n h = true ↔ ∃ t, h = n ++ t := by
  induction n generalizing h with
  | nil => simp [clStartsWith]
  | cons a as ih =>
    cases h with
    | nil =>
      simp [clStartsWith]
    | cons b bs =>
      simp only [clStartsWith, Bool.and_eq_true, beq_iff_eq, ih bs]
      constructor
      · rintro ⟨rfl, t, rfl⟩
        exact ⟨t, rfl⟩
      · rintro ⟨t, ht⟩
        cases ht
        exact ⟨rfl, t, rfl⟩

theorem containsSub_iff (n h : List Char) :
    containsSub n h = true ↔ OccursIn n h := by
  induction h with
  | nil =>
    simp only [containsSub, List.isEmpty_iff, OccursIn]
    constructor
    · rintro rfl
      exact ⟨[], [], rfl⟩
    · rintro ⟨p, q, hpq⟩
      rcases List.append_eq_nil.mp hpq.symm with ⟨rfl, h2⟩
      rcases List.append_eq_nil.mp h2 with ⟨rfl, rfl⟩
      rfl
  | cons b t ih =>
    simp only [containsSub, Bool.or_eq_true, clStartsWith_iff, ih]
    constructor
    · rintro (⟨q, hq⟩ | ⟨p, q, hpq⟩)
      · exact ⟨[], q, by simpa using hq⟩
      · exact ⟨b :: p, q, by simp [hpq]⟩
    · rintro ⟨p, q, hpq⟩
      cases p with
      | nil => exact Or.inl ⟨q, by simpa using hpq⟩
      | cons c p' =>
        rcases List.cons_eq_cons.mp hpq with ⟨rfl, h2⟩
        exact Or.inr ⟨p', q, h2⟩

/-- C1: for every model output string, `classify_email` lower-cases and
trims the generated text and returns `"spam"` exactly when the substring
`"spam"` occurs anywhere in that text, and `"not-spam"` otherwise; in
particular the model output `"not-spam"` yields the label `"spam"`. -/
theorem classify_email_substring_spec :
    (∀ (out sender subject : String) (body : Option String),
        (classify_email (fun _ => out) sender subject body = "spam" ↔
          OccursIn "spam".toList (pyLower (pyStrip out)).toList) ∧
        (classify_email (fun _ => out) sender subject body = "not-spam" ↔
          ¬ OccursIn "spam".toList (pyLower (pyStrip out)).toList)) ∧
    (∀ (sender subject : String) (body : Option String),
        classify_email (fun _ => "not-spam") sender subject body = "spam") := by
  constructor
  · intro out sender subject body
    unfold classify_email strContainsSub
    by_cases h : containsSub "spam".toList (pyLower (pyStrip out)).toList = true
    · rw [containsSub_iff] at h
      simp only [containsSub_iff]
      constructor
      · simp [h, containsSub_iff]
      · simp [h, containsSub_iff]
    · rw [containsSub_iff] at h
      constructor
      · simp [h, containsSub_iff]
      · simp [h, containsSub_iff]
  · intro sender subject body
    rfl

/-- C10: `classify_email` is total in its body argument: a missing body
behaves as the empty string, and the result is always one of the two
labels `"spam"` and `"not-spam"`. -/
theorem classify_email_total :
    (∀ (model : String → String) (sender subject : String) (body : Option String),
        classify_email model sender subject body = "spam" ∨
        classify_email model sender subject body = "not-spam") ∧
    (∀ (model : String → String) (sender subject : String),
        classify_email model sender subject none =
        classify_email model sender subject (some "")) := by
  constructor
  · intro model sender subject body
    unfold classify_email
    by_cases h : strContainsSub (pyLower (pyStrip (model (mkPrompt sender subject
        (pyTake (body.getD "") 256))))) "spam" = true
    · exact Or.inl (by simp [h])
    · exact Or.inr (by simp [h])
  · intro model sender subject
    rfl

theorem scanParts_cons (b64 : String → Option String)
    (htmlText : String → String) (part : MimePart) (rest : List MimePart) :
    scanParts b64 htmlText (part :: rest) =
      match partYields b64 htmlText part with
      | some s => some s
      | none => scanParts b64 htmlText rest := by
  obtain ⟨mime, data⟩ := part
  cases data with
  | none => simp [scanParts, partYields]
  | some raw =>
    simp only [scanParts, partYields]
    cases hb : b64 raw with
    | none => simp
    | some decoded =>
      by_cases h1 : mime = "text/plain"
      · simp [h1]
      · by_cases h2 : mime = "text/html"
        · simp [h1, h2]
        · simp [h1, h2]

theorem scanParts_eq_none (b64 : String → Option String)
    (htmlText : String → String) (parts : List MimePart)
    (hall : ∀ q ∈ parts, partYields b64 htmlText q = none) :
    scanParts b64 htmlText parts = none := by
  induction parts with
  | nil => rfl
  | cons part rest ih =>
    rw [scanParts_cons, hall part (List.mem_cons_self part rest)]
    exact ih fun q hq => hall q (List.mem_cons_of_mem part hq)

/-- C2 counterexample: with the identity base64 decoder and an HTML
stripper that returns `"STRIPPED"`, a payload whose parts are a
decodable `text/html` part followed by a decodable `text/plain` part
yields the stripped HTML, not the plain text `"plain-text"` — yet the
same `text/plain` part alone does yield `"plain-text"`. So `text/plain`
is not preferred over `text/html` regardless of part order. -/
theorem decode_email_body_order_counterexample :
    decode_email_body (fun s => some s) (fun _ => "STRIPPED")
      ⟨[⟨"text/html", some "h"⟩, ⟨"text/plain", some "plain-text"⟩], none⟩
      = "STRIPPED" ∧
    decode_email_body (fun s => some s) (fun _ => "STRIPPED")
      ⟨[⟨"text/plain", some "plain-text"⟩], none⟩ = "plain-text" ∧
    ("STRIPPED" : String) ≠ "plain-text" := by
  refine ⟨rfl, rfl, ?_⟩
  decide

/-- C2 amended: body decoding is decided by the first part in list
order that yields — a `text/plain` part yields its decoded data
verbatim, a `text/html` part yields its decoded data with markup
stripped, every other part is skipped silently; when no part yields,
the top-level payload body is decoded as HTML; when nothing decodes,
the body is the empty string. -/
theorem decode_email_body_first_yield :
    (∀ (b64 : String → Option String) (htmlText : String → String)
        (a : String), partYields b64 htmlText ⟨"text/plain", some a⟩ = b64 a) ∧
    (∀ (b64 : String → Option String) (htmlText : String → String)
        (a : String),
        partYields b64 htmlText ⟨"text/html", some a⟩ =
          Option.map htmlText (b64 a)) ∧
    (∀ (b64 : String → Option String) (htmlText : String → String)
        (pre : List MimePart) (part : MimePart) (rest : List MimePart)
        (bd : Option String) (out : String),
        (∀ q ∈ pre, partYields b64 htmlText q = none) →
        partYields b64 htmlText part = some out →
        decode_email_body b64 htmlText ⟨pre ++ part :: rest, bd⟩ = out) ∧
    (∀ (b64 : String → Option String) (htmlText : String → String)
        (parts : List MimePart) (raw decoded : String),
        (∀ q ∈ parts, partYields b64 htmlText q = none) →
        b64 raw = some decoded →
        decode_email_body b64 htmlText ⟨parts, some raw⟩ = htmlText decoded) ∧
    (∀ (b64 : String → Option String) (htmlText : String → String)
        (parts : List MimePart) (bd : Option String),
        (∀ q ∈ parts, partYields b64 htmlText q = none) →
        (∀ raw, bd = some raw → b64 raw = none) →
        decode_email_body b64 htmlText ⟨parts, bd⟩ = "") := by
  refine ⟨?_, ?_, ?_, ?_, ?_⟩
  · intro b64 htmlText a
    simp only [partYields]
    cases b64 a with
    | none => rfl
    | some d => simp
  · intro b64 htmlText a
    simp only [partYields]
    cases b64 a with
    | none => rfl
    | some d => simp
  · intro b64 htmlText pre part rest bd out hpre hpart
    induction pre with
    | nil =>
      simp only [List.nil_append, decode_email_body, scanParts_cons, hpart]
    | cons q pre' ih =>
      have hq : partYields b64 htmlText q = none :=
        hpre q (List.mem_cons_self q pre')
      have hpre' : ∀ r ∈ pre', partYields b64 htmlText r = none :=
        fun r hr => hpre r (List.mem_cons_of_mem q hr)
      have := ih hpre'
      simp only [decode_email_body, List.cons_append, scanParts_cons, hq]
        at this ⊢
      exact this
  · intro b64 htmlText parts raw decoded hall hraw
    simp only [decode_email_body, scanParts_eq_none b64 htmlText parts hall,
      hraw]
  · intro b64 htmlText parts bd hall hbd
    simp only [decode_email_body, scanParts_eq_none b64 htmlText parts hall]
    cases bd with
    | none => rfl
    | some raw => simp [hbd raw rfl]

/-- C2 witness: the amended theorem applied at a concrete payload — a
skipped part with a foreign mime type followed by a `text/html` part
whose stripped text is returned. -/
theorem decode_email_body_first_yield_witness :
    decode_email_body (fun s => some s) (fun s => String.append s "!")
      ⟨[⟨"application/json", some "x"⟩, ⟨"text/html", some "y"⟩], none⟩
      = "y!" := by
  have h := decode_email_body_first_yield.2.2.1 (fun s => some s)
    (fun s => String.append s "!") [⟨"application/json", some "x"⟩]
    ⟨"text/html", some "y"⟩ [] none "y!"
  exact h (by intro q hq; simp at hq; subst hq; rfl) rfl

theorem cacheLookup_insert_self (c : Cache) (u : String) (e : Entry) :
    cacheLookup (cacheInsert c u e) u = some e := by
  induction c with
  | nil => simp [cacheInsert, cacheLookup]
  | cons p rest ih =>
    obtain ⟨k, v⟩ := p
    by_cases hk : k = u
    · simp [cacheInsert, cacheLookup, hk]
    · simp [cacheInsert, cacheLookup, hk, ih]

theorem cacheLookup_insert_other (c : Cache) (u u' : String) (e : Entry)
    (h : u' ≠ u) :
    cacheLookup (cacheInsert c u e) u' = cacheLookup c u' := by
  induction c with
  | nil => simp [cacheInsert, cacheLookup, Ne.symm h]
  | cons p rest ih =>
    obtain ⟨k, v⟩ := p
    by_cases hk : k = u
    · subst hk
      simp [cacheInsert, cacheLookup, Ne.symm h]
    · simp [cacheInsert, cacheLookup, hk, ih]

theorem cacheLookup_erase_self (c : Cache) (u : String) :
    cacheLookup (cacheErase c u) u = none := by
  induction c with
  | nil => rfl
  | cons p rest ih =>
    obtain ⟨k, v⟩ := p
    simp only [cacheErase, List.filter_cons] at ih ⊢
    by_cases hk : k = u
    · simp [hk, ih]
    · simp [bne_iff_ne.mpr hk, cacheLookup, hk, ih]

theorem cacheLookup_erase_other (c : Cache) (u u' : String) (h : u' ≠ u) :
    cacheLookup (cacheErase c u) u' = cacheLookup c u' := by
  induction c with
  | nil => rfl
  | cons p rest ih =>
    obtain ⟨k, v⟩ := p
    simp only [cacheErase, List.filter_cons] at ih ⊢
    by_cases hk : k = u
    · subst hk
      simp [Ne.symm h, ih, cacheLookup]
    · simp [bne_iff_ne.mpr hk, cacheLookup, ih]

theorem cacheLookup_erase_le (c : Cache) (u u' : String) (e : Entry)
    (h : cacheLookup (cacheErase c u) u' = some e) :
    cacheLookup c u' = some e := by
  by_cases hu : u' = u
  · subst hu
    rw [cacheLookup_erase_self] at h
    cases h
  · rwa [cacheLookup_erase_other c u u' hu] at h

theorem cacheLookup_mem (c : Cache) (u : String) (e : Entry)
    (h : cacheLookup c u = some e) : (u, e) ∈ c := by
  induction c with
  | nil => cases h
  | cons p rest ih =>
    obtain ⟨k, v⟩ := p
    by_cases hk : k = u
    · subst hk
      have hv : cacheLookup ((k, v) :: rest) k = some v := by
        simp [cacheLookup]
      rw [hv] at h
      cases h
      exact List.mem_cons_self _ _
    · simp only [cacheLookup, if_neg hk] at h
      exact List.mem_cons_of_mem _ (ih h)

theorem mem_cacheLookup (c : Cache) (u : String) (e : Entry)
    (hnd : NoDupKeys c) (h : (u, e) ∈ c) : cacheLookup c u = some e := by
  induction c with
  | nil => cases h
  | cons p rest ih =>
    obtain ⟨k, v⟩ := p
    rw [NoDupKeys, List.map_cons, List.nodup_cons] at hnd
    rcases List.mem_cons.mp h with heq | hmem
    · rw [Prod.mk.injEq] at heq
      obtain ⟨rfl, rfl⟩ := heq
      simp [cacheLookup]
    · by_cases hk : k = u
      · subst hk
        exact absurd (List.mem_map.mpr ⟨(k, e), hmem, rfl⟩) hnd.1
      · simp only [cacheLookup, if_neg hk]
        exact ih hnd.2 hmem

theorem cacheLookup_none_not_mem (c : Cache) (u : String)
    (h : cacheLookup c u = none) : ∀ e, (u, e) ∉ c := by
  intro e hmem
  induction c with
  | nil => cases hmem
  | cons p rest ih =>
    obtain ⟨k, v⟩ := p
    rcases List.mem_cons.mp hmem with heq | hmem'
    · rw [Prod.mk.injEq] at heq
      obtain ⟨rfl, rfl⟩ := heq
      simp [cacheLookup] at h
    · by_cases hk : k = u
      · simp [cacheLookup, hk] at h
      · simp only [cacheLookup, if_neg hk] at h
        exact ih h hmem'

theorem foldl_erase_lookup (L : List String) (c : Cache) (u : String) :
    cacheLookup (L.foldl cacheErase c) u =
      if u ∈ L then none else cacheLookup c u := by
  induction L generalizing c with
  | nil => simp
  | cons a L' ih =>
    rw [List.foldl_cons, ih]
    by_cases ha : u = a
    · subst ha
      simp [cacheLookup_erase_self]
    · simp only [List.mem_cons, ha, false_or]
      by_cases hm : u ∈ L'
      · simp [hm]
      · simp [hm, cacheLookup_erase_other c a u ha]

theorem mem_expiredKeys (c : Cache) (now : Nat) (u : String) :
    (u ∈ (c.filter (fun p => decide (p.2.expires_at < now))).map Prod.fst) ↔
      ∃ e, (u, e) ∈ c ∧ e.expires_at < now := by
  constructor
  · intro h
    rcases List.mem_map.mp h with ⟨⟨k, e⟩, hp, hk⟩
    rcases List.mem_filter.mp hp with ⟨hmem, hf⟩
    cases hk
    exact ⟨e, hmem, by simpa using hf⟩
  · rintro ⟨e, hmem, hexp⟩
    exact List.mem_map.mpr
      ⟨(u, e), List.mem_filter.mpr ⟨hmem, by simpa using hexp⟩, rfl⟩

theorem cleanup_lookup (c : Cache) (now : Nat) (hnd : NoDupKeys c)
    (u : String) :
    cacheLookup (cleanup_expired_cache c now) u =
      match cacheLookup c u with
      | none => none
      | some e => if e.expires_at < now then none else some e := by
  unfold cleanup_expired_cache
  rw [foldl_erase_lookup]
  cases hlu : cacheLookup c u with
  | none =>
    by_cases hm :
        u ∈ (c.filter (fun p => decide (p.2.expires_at < now))).map Prod.fst
    · simp [hm]
    · simp [hm, hlu]
  | some e =>
    by_cases hexp : e.expires_at < now
    · have hm := (mem_expiredKeys c now u).mpr
        ⟨e, cacheLookup_mem c u e hlu, hexp⟩
      simp [hm, hexp]
    · have hm :
          u ∉ (c.filter (fun p => decide (p.2.expires_at < now))).map Prod.fst := by
        intro hmem
        rcases (mem_expiredKeys c now u).mp hmem with ⟨e', hmem', hexp'⟩
        have he' := mem_cacheLookup c u e' hnd hmem'
        rw [hlu] at he'
        cases he'
        exact hexp hexp'
      simp [hm, hlu, hexp]

theorem mem_keys_insert (c : Cache) (u : String) (e : Entry) (x : String) :
    x ∈ (cacheInsert c u e).map Prod.fst ↔
      x ∈ c.map Prod.fst ∨ x = u := by
  induction c with
  | nil => simp [cacheInsert]
  | cons p rest ih =>
    obtain ⟨k, v⟩ := p
    by_cases hk : k = u
    · subst hk
      have hins : cacheInsert ((k, v) :: rest) k e = (k, e) :: rest := by
        simp [cacheInsert]
      rw [hins]
      simp only [List.map_cons, List.mem_cons]
      tauto
    · simp only [cacheInsert, if_neg hk, List.map_cons, List.mem_cons, ih]
      tauto

theorem nodup_insert (c : Cache) (u : String) (e : Entry)
    (h : NoDupKeys c) : NoDupKeys (cacheInsert c u e) := by
  induction c with
  | nil => simp [cacheInsert, NoDupKeys]
  | cons p rest ih =>
    obtain ⟨k, v⟩ := p
    rw [NoDupKeys, List.map_cons, List.nodup_cons] at h
    by_cases hk : k = u
    · subst hk
      have hins : cacheInsert ((k, v) :: rest) k e = (k, e) :: rest := by
        simp [cacheInsert]
      rw [NoDupKeys, hins, List.map_cons, List.nodup_cons]
      exact h
    · rw [NoDupKeys]
      simp only [cacheInsert, if_neg hk, List.map_cons, List.nodup_cons]
      refine ⟨?_, ih h.2⟩
      rw [mem_keys_insert]
      rintro (hmem | rfl)
      · exact h.1 hmem
      · exact hk rfl

theorem nodup_erase (c : Cache) (u : String) (h : NoDupKeys c) :
    NoDupKeys (cacheErase c u) := by
  rw [NoDupKeys] at h ⊢
  exact ((List.filter_sublist c).map Prod.fst).nodup h

theorem nodup_foldl_erase (L : List String) (c : Cache)
    (h : NoDupKeys c) : NoDupKeys (L.foldl cacheErase c) := by
  induction L generalizing c with
  | nil => exact h
  | cons a L' ih => exact ih (cacheErase c a) (nodup_erase c a h)

theorem nodup_cleanup (c : Cache) (now : Nat) (h : NoDupKeys c) :
    NoDupKeys (cleanup_expired_cache c now) :=
  nodup_foldl_erase _ c h

theorem nodup_get (c : Cache) (u : String) (now : Nat) (h : NoDupKeys c) :
    NoDupKeys (get_user_emails c u now).2 := by
  unfold get_user_emails
  cases cacheLookup c u with
  | none => exact h
  | some e =>
    by_cases hexp : e.expires_at < now
    · simpa [hexp] using nodup_erase c u h
    · simpa [hexp] using h

/-- C3: a `get` performed after a `put`, at any time at or before the
stored entry's `expires_at` (= put time + TTL), returns exactly the
messages and provenance passed to the `put`, unchanged. -/
theorem get_after_put_within_ttl (c : Cache) (u : String)
    (emails : List Msg) (source : String) (t now : Nat)
    (h : now ≤ t + TTL_SECONDS) :
    (get_user_emails (store_user_emails c u emails source t) u now).1 =
      (some emails, some source) := by
  unfold get_user_emails store_user_emails
  rw [cacheLookup_insert_self]
  have hlt : ¬ ((⟨emails, source, t, t + TTL_SECONDS⟩ : Entry).expires_at
      < now) := by
    simp only []
    omega
  simp [hlt]

/-- C3 witness. -/
theorem get_after_put_within_ttl_witness :
    (get_user_emails (store_user_emails []
        "alice" [⟨"m1", "s@x", "hi", "b", some "spam"⟩] "model prediction"
        100) "alice" 7300).1 =
      (some [⟨"m1", "s@x", "hi", "b", some "spam"⟩],
        some "model prediction") :=
  get_after_put_within_ttl [] "alice"
    [⟨"m1", "s@x", "hi", "b", some "spam"⟩] "model prediction" 100 7300
    (by decide)

/-- C4: a `get` strictly after an entry's `expires_at` returns the
absent pair and deletes the entry; a `get` on a missing owner id
returns the absent pair (and leaves the cache unchanged). -/
theorem get_expired_or_missing (c : Cache) (u : String) (now : Nat) :
    (∀ e, cacheLookup c u = some e → e.expires_at < now →
      get_user_emails c u now = ((none, none), cacheErase c u) ∧
      cacheLookup (get_user_emails c u now).2 u = none) ∧
    (cacheLookup c u = none →
      get_user_emails c u now = ((none, none), c)) := by
  constructor
  · intro e hl hexp
    have hg : get_user_emails c u now = ((none, none), cacheErase c u) := by
      unfold get_user_emails
      rw [hl]
      simp [hexp]
    exact ⟨hg, by rw [hg]; exact cacheLookup_erase_self c u⟩
  · intro hl
    unfold get_user_emails
    rw [hl]

/-- C4 witness: an expired entry is reported absent and deleted, and a
missing owner id is reported absent. -/
theorem get_expired_or_missing_witness :
    get_user_emails [("alice", ⟨[], "model prediction", 0, 7200⟩)]
        "alice" 7201 = ((none, none), []) ∧
    get_user_emails [] "bob" 5 = ((none, none), []) := by
  constructor
  · have h := (get_expired_or_missing
      [("alice", ⟨[], "model prediction", 0, 7200⟩)] "alice" 7201).1
      ⟨[], "model prediction", 0, 7200⟩ rfl (by decide)
    exact h.1
  · exact (get_expired_or_missing [] "bob" 5).2 rfl

/-- C5: `put` stamps `expires_at = created_at + TTL` (2 hours); this
holds in the empty cache and is preserved by every operation; and the
read operations — `get`, the sweep, and the stats endpoint's sweep —
never change a live entry: any entry that is not expired is still
present afterwards, identical, so its `created_at` and `expires_at`
are untouched. -/
theorem ttl_invariant_and_reads_preserve :
    CacheWf ([] : Cache) ∧
    (∀ c u emails source t, CacheWf c →
      CacheWf (store_user_emails c u emails source t)) ∧
    (∀ c u now, CacheWf c → CacheWf (get_user_emails c u now).2) ∧
    (∀ c now, CacheWf c → CacheWf (cleanup_expired_cache c now)) ∧
    (∀ c u now u' e, cacheLookup c u' = some e → ¬ e.expires_at < now →
      cacheLookup (get_user_emails c u now).2 u' = some e) ∧
    (∀ c now u e, NoDupKeys c → cacheLookup c u = some e →
      ¬ e.expires_at < now →
      cacheLookup (cleanup_expired_cache c now) u = some e) ∧
    (∀ c now u e, NoDupKeys c → cacheLookup c u = some e →
      ¬ e.expires_at < now →
      cacheLookup (cache_stats_effect c now) u = some e) := by
  have hcleanup : ∀ (c : Cache) (now : Nat) (u : String) (e : Entry),
      NoDupKeys c → cacheLookup c u = some e → ¬ e.expires_at < now →
      cacheLookup (cleanup_expired_cache c now) u = some e := by
    intro c now u e hnd hl hexp
    rw [cleanup_lookup c now hnd u, hl]
    simp [hexp]
  have hget : ∀ (c : Cache) (u : String) (now : Nat) (u' : String)
      (e : Entry), cacheLookup c u' = some e → ¬ e.expires_at < now →
      cacheLookup (get_user_emails c u now).2 u' = some e := by
    intro c u now u' e hl hexp
    unfold get_user_emails
    cases hlu : cacheLookup c u with
    | none => simpa using hl
    | some e0 =>
      by_cases hexp0 : e0.expires_at < now
      · simp only [hexp0, if_pos]
        have hne : u' ≠ u := by
          rintro rfl
          rw [hl] at hlu
          cases hlu
          exact hexp hexp0
        rw [cacheLookup_erase_other c u u' hne]
        exact hl
      · simpa [hexp0] using hl
  refine ⟨?_, ?_, ?_, ?_, hget, hcleanup, hcleanup⟩
  · intro u e h
    cases h
  · intro c u emails source t hwf u' e hl
    by_cases hu : u' = u
    · subst hu
      rw [store_user_emails, cacheLookup_insert_self] at hl
      cases hl
      rfl
    · rw [store_user_emails, cacheLookup_insert_other c u u' _ hu] at hl
      exact hwf u' e hl
  · intro c u now hwf u' e hl
    unfold get_user_emails at hl
    cases hlu : cacheLookup c u with
    | none =>
      rw [hlu] at hl
      exact hwf u' e hl
    | some e0 =>
      rw [hlu] at hl
      by_cases hexp0 : e0.expires_at < now
      · simp only [hexp0, if_pos] at hl
        exact hwf u' e (cacheLookup_erase_le c u u' e hl)
      · simp only [hexp0] at hl
        exact hwf u' e hl
  · intro c now hwf u e hl
    unfold cleanup_expired_cache at hl
    rw [foldl_erase_lookup] at hl
    by_cases hm : u ∈ (c.filter
        (fun p => decide (p.2.expires_at < now))).map Prod.fst
    · simp [hm] at hl
    · simp only [hm, if_neg, not_false_iff] at hl
      exact hwf u e hl

/-- C5 witness: a fresh entry and a live entry surviving a sweep. -/
theorem ttl_invariant_and_reads_preserve_witness :
    EntryWf (⟨[], "model prediction", 40, 40 + TTL_SECONDS⟩ : Entry) ∧
    cacheLookup (cleanup_expired_cache
        [("alice", ⟨[], "model prediction", 40, 7240⟩)] 7000) "alice" =
      some ⟨[], "model prediction", 40, 7240⟩ := by
  constructor
  · exact ttl_invariant_and_reads_preserve.2.1 [] "alice" [] "model prediction"
      40 ttl_invariant_and_reads_preserve.1 "alice"
      ⟨[], "model prediction", 40, 40 + TTL_SECONDS⟩
      (by rw [store_user_emails, cacheLookup_insert_self])
  · exact ttl_invariant_and_reads_preserve.2.2.2.2.2.1
      [("alice", ⟨[], "model prediction", 40, 7240⟩)] 7000 "alice"
      ⟨[], "model prediction", 40, 7240⟩ (by unfold NoDupKeys; decide) rfl
      (by decide)

/-- C6: a second `put` for the same owner id fully overwrites the
first — only the second `put`'s messages, provenance and timestamps
are visible to later `get`s — and key-uniqueness (at most one entry
per owner id) holds in the empty cache and is preserved by every cache
operation. -/
theorem put_overwrite_and_unique_keys :
    (∀ (c : Cache) (u : String) (m1 : List Msg) (s1 : String) (t1 : Nat)
        (m2 : List Msg) (s2 : String) (t2 : Nat),
      cacheLookup (store_user_emails (store_user_emails c u m1 s1 t1)
          u m2 s2 t2) u = some ⟨m2, s2, t2, t2 + TTL_SECONDS⟩) ∧
    (∀ (c : Cache) (u : String) (m1 : List Msg) (s1 : String) (t1 : Nat)
        (m2 : List Msg) (s2 : String) (t2 now : Nat),
      now ≤ t2 + TTL_SECONDS →
      (get_user_emails (store_user_emails (store_user_emails c u m1 s1 t1)
          u m2 s2 t2) u now).1 = (some m2, some s2)) ∧
    NoDupKeys ([] : Cache) ∧
    (∀ c u emails source t, NoDupKeys c →
      NoDupKeys (store_user_emails c u emails source t)) ∧
    (∀ c u now, NoDupKeys c → NoDupKeys (get_user_emails c u now).2) ∧
    (∀ c now, NoDupKeys c → NoDupKeys (cleanup_expired_cache c now)) ∧
    (∀ c u, NoDupKeys c → NoDupKeys (logout_effect c u)) := by
  refine ⟨?_, ?_, ?_, ?_, ?_, ?_, ?_⟩
  · intro c u m1 s1 t1 m2 s2 t2
    rw [store_user_emails, cacheLookup_insert_self]
  · intro c u m1 s1 t1 m2 s2 t2 now h
    exact get_after_put_within_ttl _ u m2 s2 t2 now h
  · simp [NoDupKeys]
  · intro c u emails source t h
    exact nodup_insert c u _ h
  · intro c u now h
    exact nodup_get c u now h
  · intro c now h
    exact nodup_cleanup c now h
  · intro c u h
    exact nodup_erase c u h

/-- C6 witness: the second `put` wins. -/
theorem put_overwrite_and_unique_keys_witness :
    (get_user_emails (store_user_emails (store_user_emails []
        "alice" [] "model prediction" 0)
        "alice" [⟨"m2", "s", "t", "b", none⟩] "user corrected" 50)
        "alice" 1000).1 =
      (some [⟨"m2", "s", "t", "b", none⟩], some "user corrected") :=
  put_overwrite_and_unique_keys.2.1 [] "alice" [] "model prediction" 0
    [⟨"m2", "s", "t", "b", none⟩] "user corrected" 50 1000 (by decide)

/-- C9: the sweep deletes exactly the entries whose `expires_at` is
strictly in the past; every other entry survives with its data and
timestamps unchanged, and the sweep adds nothing. -/
theorem cleanup_removes_exactly_expired (c : Cache) (now : Nat)
    (hnd : NoDupKeys c) :
    (∀ u e, cacheLookup c u = some e →
      cacheLookup (cleanup_expired_cache c now) u =
        if e.expires_at < now then none else some e) ∧
    (∀ u e, cacheLookup (cleanup_expired_cache c now) u = some e →
      cacheLookup c u = some e ∧ ¬ e.expires_at < now) := by
  constructor
  · intro u e hl
    rw [cleanup_lookup c now hnd u, hl]
  · intro u e hl
    rw [cleanup_lookup c now hnd u] at hl
    cases hlu : cacheLookup c u with
    | none =>
      rw [hlu] at hl
      exact Option.noConfusion hl
    | some e0 =>
      rw [hlu] at hl
      have hl' : (if e0.expires_at < now then none else some e0) =
          some e := hl
      by_cases hexp : e0.expires_at < now
      · rw [if_pos hexp] at hl'
        cases hl'
      · rw [if_neg hexp] at hl'
        cases hl'
        exact ⟨rfl, hexp⟩

/-- C9 witness: of two entries, exactly the expired one is swept. -/
theorem cleanup_removes_exactly_expired_witness :
    cacheLookup (cleanup_expired_cache
        [("alice", ⟨[], "model prediction", 0, 7200⟩),
         ("bob", ⟨[], "user corrected", 5000, 12200⟩)] 10000) "alice" =
      none ∧
    cacheLookup (cleanup_expired_cache
        [("alice", ⟨[], "model prediction", 0, 7200⟩),
         ("bob", ⟨[], "user corrected", 5000, 12200⟩)] 10000) "bob" =
      some ⟨[], "user corrected", 5000, 12200⟩ := by
  constructor
  · have h := (cleanup_removes_exactly_expired
        [("alice", ⟨[], "model prediction", 0, 7200⟩),
         ("bob", ⟨[], "user corrected", 5000, 12200⟩)] 10000
        (by unfold NoDupKeys; decide)).1
        "alice" ⟨[], "model prediction", 0, 7200⟩ rfl
    simpa using h
  · have h := (cleanup_removes_exactly_expired
        [("alice", ⟨[], "model prediction", 0, 7200⟩),
         ("bob", ⟨[], "user corrected", 5000, 12200⟩)] 10000
        (by unfold NoDupKeys; decide)).1
        "bob" ⟨[], "user corrected", 5000, 12200⟩ rfl
    simpa using h

theorem trashLoop_ok {σ : Type} (step : σ → String → Option σ)
    (ids : List String) (s s_fin : σ)
    (h : trashAll step s ids = some s_fin) :
    ∀ n, trashLoop step s ids n = (s_fin, some (n + ids.length)) := by
  induction ids generalizing s with
  | nil =>
    intro n
    rw [trashAll] at h
    cases h
    simp [trashLoop]
  | cons a rest ih =>
    intro n
    rw [trashAll] at h
    cases hs : step s a with
    | none => rw [hs] at h; exact Option.noConfusion h
    | some s' =>
      rw [hs] at h
      have h' : trashAll step s' rest = some s_fin := h
      rw [trashLoop, hs]
      show trashLoop step s' rest (n + 1) =
        (s_fin, some (n + (a :: rest).length))
      rw [ih s' h' (n + 1), List.length_cons]
      have harith : n + 1 + rest.length = n + (rest.length + 1) := by omega
      rw [harith]

theorem trashLoop_fail {σ : Type} (step : σ → String → Option σ)
    (pre : List String) (bad : String) (rest : List String) (s s' : σ)
    (hpre : trashAll step s pre = some s') (hbad : step s' bad = none) :
    ∀ n, trashLoop step s (pre ++ bad :: rest) n = (s', none) := by
  induction pre generalizing s with
  | nil =>
    intro n
    rw [trashAll] at hpre
    cases hpre
    rw [List.nil_append, trashLoop, hbad]
  | cons a pre' ih =>
    intro n
    rw [trashAll] at hpre
    cases hs : step s a with
    | none => rw [hs] at hpre; exact Option.noConfusion hpre
    | some s1 =>
      rw [hs] at hpre
      have hpre' : trashAll step s1 pre' = some s' := hpre
      rw [List.cons_append, trashLoop, hs]
      show trashLoop step s1 (pre' ++ bad :: rest) (n + 1) = (s', none)
      exact ih s1 hpre' (n + 1)

/-- C7: `move_emails_to_trash` submits one trash call per id in list
order; when all succeed it returns the length of the list, and when
the call for some id fails the failure propagates at once: the ids
after it are not processed and the state keeps exactly the effect of
the earlier successful calls (no rollback). -/
theorem move_emails_to_trash_spec :
    (∀ (σ : Type) (step : σ → String → Option σ) (s : σ)
        (ids : List String) (s_fin : σ),
      trashAll step s ids = some s_fin →
      move_emails_to_trash step s ids = (s_fin, some ids.length)) ∧
    (∀ (σ : Type) (step : σ → String → Option σ) (s : σ)
        (pre : List String) (bad : String) (rest : List String) (s' : σ),
      trashAll step s pre = some s' → step s' bad = none →
      move_emails_to_trash step s (pre ++ bad :: rest) = (s', none)) := by
  constructor
  · intro σ step s ids s_fin h
    rw [move_emails_to_trash, trashLoop_ok step ids s s_fin h 0]
    simp
  · intro σ step s pre bad rest s' hpre hbad
    exact trashLoop_fail step pre bad rest s s' hpre hbad 0

/-- C7 witness: with a mail account modelled as the list of trashed
ids and a step that fails on the id `"bad"`, a clean run counts both
ids, and a run hitting `"bad"` keeps the first id trashed, reports
failure, and never reaches the last id. -/
theorem move_emails_to_trash_spec_witness :
    move_emails_to_trash
      (fun (st : List String) i => if i = "bad" then none else some (st ++ [i]))
      [] ["a", "b"] = (["a", "b"], some 2) ∧
    move_emails_to_trash
      (fun (st : List String) i => if i = "bad" then none else some (st ++ [i]))
      [] ["a", "bad", "c"] = (["a"], none) := by
  constructor
  · exact move_emails_to_trash_spec.1 (List String)
      (fun st i => if i = "bad" then none else some (st ++ [i]))
      [] ["a", "b"] ["a", "b"] (by decide)
  · exact move_emails_to_trash_spec.2 (List String)
      (fun st i => if i = "bad" then none else some (st ++ [i]))
      [] ["a"] "bad" ["c"] ["a"] (by decide) (by decide)

/-- C8: exactly the messages whose prediction trims and lower-cases to
`"spam"` are selected — on predictions `["spam", "Spam ", "not-spam",
""]` exactly the first two — and when nothing is selected the handler
returns zero moved with the mail state untouched. -/
theorem move_to_trash_selects_spam :
    (selectSpamIds
        [⟨"1", "", "", "", some "spam"⟩, ⟨"2", "", "", "", some "Spam "⟩,
         ⟨"3", "", "", "", some "not-spam"⟩, ⟨"4", "", "", "", some ""⟩] =
      ["1", "2"]) ∧
    (∀ (emails : List Msg) (e : Msg), e ∈ emails →
      pyStrip (pyLower (e.prediction.getD "")) = "spam" →
      e.id ∈ selectSpamIds emails) ∧
    (∀ (emails : List Msg) (i : String), i ∈ selectSpamIds emails →
      ∃ e, e ∈ emails ∧ e.id = i ∧
        pyStrip (pyLower (e.prediction.getD "")) = "spam") ∧
    (∀ (σ : Type) (step : σ → String → Option σ) (s : σ)
        (emails : List Msg),
      (∀ e ∈ emails, pyStrip (pyLower (e.prediction.getD "")) ≠ "spam") →
      move_to_trash_route step s emails = (s, some 0)) := by
  refine ⟨by decide, ?_, ?_, ?_⟩
  · intro emails e hmem hpred
    exact List.mem_map.mpr
      ⟨e, List.mem_filter.mpr ⟨hmem, by simpa using hpred⟩, rfl⟩
  · intro emails i hi
    rcases List.mem_map.mp hi with ⟨e, he, rfl⟩
    rcases List.mem_filter.mp he with ⟨hmem, hpred⟩
    exact ⟨e, hmem, rfl, by simpa using hpred⟩
  · intro σ step s emails hall
    have hempty : selectSpamIds emails = [] := by
      rw [selectSpamIds, List.filter_eq_nil_iff.mpr, List.map_nil]
      intro e hmem
      simpa using hall e hmem
    rw [move_to_trash_route]
    simp [hempty]

/-- C8 witness: a cache with only non-spam predictions moves nothing
and leaves the mail state alone. -/
theorem move_to_trash_selects_spam_witness :
    move_to_trash_route
      (fun (st : List String) i => some (st ++ [i])) []
      [⟨"3", "", "", "", some "not-spam"⟩, ⟨"4", "", "", "", none⟩] =
      ([], some 0) :=
  move_to_trash_selects_spam.2.2.2 (List String)
    (fun st i => some (st ++ [i])) []
    [⟨"3", "", "", "", some "not-spam"⟩, ⟨"4", "", "", "", none⟩]
    (by decide)
